import Mathlib

/-!
Verification development for the vault-crypt repository.

The core of the program lives in two Rust modules:
* src/pins.rs — the keystream cipher (xorshift32, n_shift), the masking
  convention (encapsulate, decapsulate), encrypt/decrypt, and the vault
  codec (Pins::verify, Pins::load, Pins::save);
* src/re.rs — the cracking engine (Cracker::load, part_bruteforce,
  bruteforce_threaded, part_find, find_threaded).

Machine integers (u32, u8) are modelled as Nat; Rust wrapping arithmetic
is written with an explicit reduction modulo 2 ^ 32 at the points where a
u32 shift may overflow.  Byte buffers are lists of Nat.  The operating
system random source used by encapsulate is modelled as an explicit
argument supplying the 2-bit mask value.  Rust panics (assert!) are
modelled as Option.none where they are reachable.
-/

/-- From src/pins.rs, fn xorshift32: one xorshift bit-mixing step on a u32,
x ^= x << 13; x ^= x >> 17; x ^= x << 5, with the left shifts wrapping
modulo 2 ^ 32. -/
def xorshift32 (state : Nat) : Nat :=
  let a := state ^^^ ((state <<< 13) % 2 ^ 32)
  let b := a ^^^ (a >>> 17)
  b ^^^ ((b <<< 5) % 2 ^ 32)

/-- From src/pins.rs, fn n_shift: apply xorshift32 exactly shift times to
state (the Rust for loop over 0..shift). -/
def n_shift (state : Nat) : Nat → Nat
  | 0 => state
  | k + 1 => xorshift32 (n_shift state k)

/-- From src/pins.rs, fn encapsulate: overlay a random 2-bit value r (drawn
from 0..=3 by OsRng in the source, here an explicit argument) onto bits
30-31 of the pin. -/
def encapsulate (pin : Nat) (r : Nat) : Nat :=
  pin ||| (r <<< 30)

/-- From src/pins.rs, fn decapsulate: clear bits 30 and 31,
x &= !(0b11 << 30) on a u32 (the u32 complement is xor with 2 ^ 32 - 1). -/
def decapsulate (pin : Nat) : Nat :=
  pin &&& ((2 ^ 32 - 1) ^^^ (3 <<< 30))

/-- From src/pins.rs, fn encrypt: keystream xor masked pin.  The random
mask value r is threaded explicitly. -/
def encrypt (master id pin r : Nat) : Nat :=
  n_shift master (id + 1) ^^^ encapsulate pin r

/-- From src/pins.rs, fn decrypt: xor the keystream back in, then drop the
mask bits. -/
def decrypt (master id pin : Nat) : Nat :=
  decapsulate (n_shift master (id + 1) ^^^ pin)

lemma decapsulate_eq_land (pin : Nat) : decapsulate pin = pin &&& (2 ^ 30 - 1) := by
  unfold decapsulate
  congr 1

lemma decapsulate_lt (pin : Nat) : decapsulate pin < 2 ^ 30 := by
  rw [decapsulate_eq_land]
  exact lt_of_le_of_lt Nat.and_le_right (by norm_num)

lemma decapsulate_lor_shift (pin r : Nat) :
    decapsulate (pin ||| (r <<< 30)) = decapsulate pin := by
  rw [decapsulate_eq_land, decapsulate_eq_land]
  apply Nat.eq_of_testBit_eq
  intro i
  simp only [Nat.testBit_land, Nat.testBit_lor, Nat.testBit_shiftLeft,
    Nat.testBit_two_pow_sub_one]
  by_cases h : i < 30
  · have h2 : ¬ (i ≥ 30) := by omega
    simp [h, h2]
  · simp [h]

lemma decapsulate_of_lt (pin : Nat) (h : pin < 2 ^ 30) : decapsulate pin = pin := by
  rw [decapsulate_eq_land]
  apply Nat.eq_of_testBit_eq
  intro i
  simp only [Nat.testBit_land, Nat.testBit_two_pow_sub_one]
  by_cases hi : i < 30
  · simp [hi]
  · have hb : pin.testBit i = false :=
      Nat.testBit_lt_two_pow
        (lt_of_lt_of_le h (Nat.pow_le_pow_right (by norm_num) (by omega)))
    simp [hi, hb]

lemma xor_xor_cancel (k e : Nat) : k ^^^ (k ^^^ e) = e := by
  rw [← Nat.xor_assoc, Nat.xor_self, Nat.zero_xor]

lemma decrypt_encrypt (master id pin r : Nat) :
    decrypt master id (encrypt master id pin r) = decapsulate pin := by
  unfold decrypt encrypt encapsulate
  rw [xor_xor_cancel, decapsulate_lor_shift]

/-- Parse-time failures of the vault codec, named as in the specification.
The Rust source reports them through anyhow bail! messages in the same
four places. -/
inductive VaultError where
  | emptyInput : VaultError
  | truncatedInput : VaultError
  | invalidSlot : Nat → VaultError
  | duplicateSlot : Nat → VaultError
deriving DecidableEq

/-- The record loop of Pins::verify (src/pins.rs): k records remain to be
checked, i is the index of the current record and seen collects the ids
already inserted into the HashSet.  Record i has its id at rest[i * 5]
(always in bounds after the length check, so getD with default 0 reads
the same byte the Rust indexing does). -/
def verifyLoop (rest : List Nat) : Nat → Nat → List Nat → Except VaultError Unit
  | 0, _, _ => Except.ok ()
  | k + 1, i, seen =>
    let id := rest.getD (i * 5) 0
    if id > 99 then Except.error (VaultError.invalidSlot id)
    else if id ∈ seen then Except.error (VaultError.duplicateSlot id)
    else verifyLoop rest k (i + 1) (id :: seen)

/-- From src/pins.rs, Pins::verify: byte 0 is the record count, the body
must hold at least count * 5 bytes, each record id must be at most 99 and
ids must not repeat. -/
def verify : List Nat → Except VaultError Unit
  | [] => Except.error VaultError.emptyInput
  | len :: rest =>
    if rest.length < len * 5 then Except.error VaultError.truncatedInput
    else verifyLoop rest len 0 []

/-- The slot ids of the k records starting at record index i: record j has
its id byte at rest[(i + j) * 5].  declaredIds rest 0 len is the list of
ids the count byte declares. -/
def idsFrom (rest : List Nat) (i : Nat) : Nat → List Nat
  | 0 => []
  | k + 1 => rest.getD (i * 5) 0 :: idsFrom rest (i + 1) k

lemma idsFrom_succ (rest : List Nat) (i k : Nat) :
    idsFrom rest i (k + 1) = rest.getD (i * 5) 0 :: idsFrom rest (i + 1) k := rfl

lemma verifyLoop_ok_iff (rest : List Nat) (k i : Nat) (seen : List Nat) :
    verifyLoop rest k i seen = Except.ok () ↔
      (∀ id ∈ idsFrom rest i k, id ≤ 99) ∧ (idsFrom rest i k).Nodup ∧
        ∀ id ∈ idsFrom rest i k, id ∉ seen := by
  induction k generalizing i seen with
  | zero => simp [verifyLoop, idsFrom]
  | succ k ih =>
    rw [idsFrom_succ]
    simp only [verifyLoop]
    by_cases h1 : rest.getD (i * 5) 0 > 99
    · rw [if_pos h1]
      constructor
      · intro h
        simp at h
      · rintro ⟨ha, -, -⟩
        exact absurd (ha _ (List.mem_cons_self _ _)) (by omega)
    · by_cases h2 : rest.getD (i * 5) 0 ∈ seen
      · rw [if_neg h1, if_pos h2]
        constructor
        · intro h
          simp at h
        · rintro ⟨-, -, hc⟩
          exact absurd h2 (hc _ (List.mem_cons_self _ _))
      · rw [if_neg h1, if_neg h2, ih]
        simp only [List.forall_mem_cons, List.nodup_cons]
        constructor
        · rintro ⟨ha, hb, hc⟩
          exact ⟨⟨by omega, ha⟩, ⟨fun hm => hc _ hm (List.mem_cons_self _ _), hb⟩,
            h2, fun id hm hs => hc _ hm (List.mem_cons_of_mem _ hs)⟩
        · rintro ⟨⟨h0, ha⟩, ⟨hnt, hb⟩, h0s, hc⟩
          refine ⟨ha, hb, fun id hm hs => ?_⟩
          rcases List.mem_cons.mp hs with rfl | hs2
          · exact hnt hm
          · exact hc _ hm hs2

lemma verifyLoop_cases (rest : List Nat) (k i : Nat) (seen : List Nat) :
    verifyLoop rest k i seen = Except.ok () ∨
    (∃ id, verifyLoop rest k i seen = Except.error (VaultError.invalidSlot id)) ∨
    (∃ id, verifyLoop rest k i seen = Except.error (VaultError.duplicateSlot id)) := by
  induction k generalizing i seen with
  | zero => exact Or.inl rfl
  | succ k ih =>
    simp only [verifyLoop]
    by_cases h1 : rest.getD (i * 5) 0 > 99
    · exact Or.inr (Or.inl ⟨_, by rw [if_pos h1]⟩)
    · by_cases h2 : rest.getD (i * 5) 0 ∈ seen
      · exact Or.inr (Or.inr ⟨_, by rw [if_neg h1, if_pos h2]⟩)
      · rw [if_neg h1, if_neg h2]
        exact ih _ _

lemma verifyLoop_ne_truncated (rest : List Nat) (k i : Nat) (seen : List Nat) :
    verifyLoop rest k i seen ≠ Except.error VaultError.truncatedInput := by
  rcases verifyLoop_cases rest k i seen with h | ⟨id, h⟩ | ⟨id, h⟩ <;> simp [h]

lemma verifyLoop_ne_empty (rest : List Nat) (k i : Nat) (seen : List Nat) :
    verifyLoop rest k i seen ≠ Except.error VaultError.emptyInput := by
  rcases verifyLoop_cases rest k i seen with h | ⟨id, h⟩ | ⟨id, h⟩ <;> simp [h]

lemma verifyLoop_invalid (rest : List Nat) (k i : Nat) (seen : List Nat) (id : Nat)
    (h : verifyLoop rest k i seen = Except.error (VaultError.invalidSlot id)) :
    id ∈ idsFrom rest i k ∧ 99 < id := by
  induction k generalizing i seen with
  | zero => simp [verifyLoop] at h
  | succ k ih =>
    rw [idsFrom_succ]
    simp only [verifyLoop] at h
    by_cases h1 : rest.getD (i * 5) 0 > 99
    · rw [if_pos h1] at h
      simp only [Except.error.injEq, VaultError.invalidSlot.injEq] at h
      subst h
      exact ⟨List.mem_cons_self _ _, h1⟩
    · by_cases h2 : rest.getD (i * 5) 0 ∈ seen
      · rw [if_neg h1, if_pos h2] at h
        simp at h
      · rw [if_neg h1, if_neg h2] at h
        obtain ⟨hm, hgt⟩ := ih _ _ h
        exact ⟨List.mem_cons_of_mem _ hm, hgt⟩

lemma verifyLoop_dup (rest : List Nat) (k i : Nat) (seen : List Nat) (id : Nat)
    (h : verifyLoop rest k i seen = Except.error (VaultError.duplicateSlot id)) :
    id ∈ idsFrom rest i k ∧ (id ∈ seen ∨ ¬ (idsFrom rest i k).Nodup) := by
  induction k generalizing i seen with
  | zero => simp [verifyLoop] at h
  | succ k ih =>
    rw [idsFrom_succ]
    simp only [verifyLoop] at h
    by_cases h1 : rest.getD (i * 5) 0 > 99
    · rw [if_pos h1] at h
      simp at h
    · by_cases h2 : rest.getD (i * 5) 0 ∈ seen
      · rw [if_neg h1, if_pos h2] at h
        simp only [Except.error.injEq, VaultError.duplicateSlot.injEq] at h
        subst h
        exact ⟨List.mem_cons_self _ _, Or.inl h2⟩
      · rw [if_neg h1, if_neg h2] at h
        obtain ⟨hm, hrec⟩ := ih _ _ h
        refine ⟨List.mem_cons_of_mem _ hm, ?_⟩
        rcases hrec with hmem | hnd
        · rcases List.mem_cons.mp hmem with rfl | hs
          · exact Or.inr (fun hnd2 => (List.nodup_cons.mp hnd2).1 hm)
          · exact Or.inl hs
        · exact Or.inr (fun hnd2 => hnd ((List.nodup_cons.mp hnd2).2))

lemma verifyLoop_invalid_complete (rest : List Nat) (k i : Nat) (seen : List Nat)
    (hnd : (idsFrom rest i k).Nodup)
    (hdisj : ∀ id ∈ idsFrom rest i k, id ∉ seen)
    (hbad : ∃ id ∈ idsFrom rest i k, 99 < id) :
    ∃ id, 99 < id ∧ id ∈ idsFrom rest i k ∧
      verifyLoop rest k i seen = Except.error (VaultError.invalidSlot id) := by
  induction k generalizing i seen with
  | zero => simp [idsFrom] at hbad
  | succ k ih =>
    rw [idsFrom_succ] at hnd hdisj hbad ⊢
    simp only [verifyLoop]
    by_cases h1 : rest.getD (i * 5) 0 > 99
    · exact ⟨_, h1, List.mem_cons_self _ _, by rw [if_pos h1]⟩
    · have h2 : rest.getD (i * 5) 0 ∉ seen := hdisj _ (List.mem_cons_self _ _)
      rw [if_neg h1, if_neg h2]
      have hhead := (List.nodup_cons.mp hnd).1
      have hnd2 := (List.nodup_cons.mp hnd).2
      have hdisj2 : ∀ id ∈ idsFrom rest (i + 1) k,
          id ∉ rest.getD (i * 5) 0 :: seen := by
        intro id hm hmem
        rcases List.mem_cons.mp hmem with rfl | hs
        · exact hhead hm
        · exact hdisj _ (List.mem_cons_of_mem _ hm) hs
      have hbad2 : ∃ id ∈ idsFrom rest (i + 1) k, 99 < id := by
        rcases hbad with ⟨id, hm, hgt⟩
        rcases List.mem_cons.mp hm with rfl | hs
        · omega
        · exact ⟨id, hs, hgt⟩
      obtain ⟨id, hgt, hm, heq⟩ := ih _ _ hnd2 hdisj2 hbad2
      exact ⟨id, hgt, List.mem_cons_of_mem _ hm, heq⟩

lemma verifyLoop_dup_complete (rest : List Nat) (k i : Nat) (seen : List Nat)
    (hok : ∀ id ∈ idsFrom rest i k, id ≤ 99)
    (hviol : ¬ ((idsFrom rest i k).Nodup ∧ ∀ id ∈ idsFrom rest i k, id ∉ seen)) :
    ∃ id ∈ idsFrom rest i k,
      verifyLoop rest k i seen = Except.error (VaultError.duplicateSlot id) := by
  induction k generalizing i seen with
  | zero =>
    exfalso
    exact hviol (by simp [idsFrom])
  | succ k ih =>
    rw [idsFrom_succ] at hok hviol ⊢
    simp only [verifyLoop]
    have h1 : ¬ rest.getD (i * 5) 0 > 99 := by
      have := hok _ (List.mem_cons_self _ _)
      omega
    rw [if_neg h1]
    by_cases h2 : rest.getD (i * 5) 0 ∈ seen
    · rw [if_pos h2]
      exact ⟨_, List.mem_cons_self _ _, rfl⟩
    · rw [if_neg h2]
      have hok2 : ∀ id ∈ idsFrom rest (i + 1) k, id ≤ 99 :=
        fun id hm => hok _ (List.mem_cons_of_mem _ hm)
      have hviol2 : ¬ ((idsFrom rest (i + 1) k).Nodup ∧
          ∀ id ∈ idsFrom rest (i + 1) k, id ∉ rest.getD (i * 5) 0 :: seen) := by
        rintro ⟨hnd, hdisj⟩
        apply hviol
        constructor
        · exact List.nodup_cons.mpr
            ⟨fun hm => hdisj _ hm (List.mem_cons_self _ _), hnd⟩
        · intro id hm
          rcases List.mem_cons.mp hm with rfl | hs
          · exact h2
          · exact fun hs2 => hdisj _ hs (List.mem_cons_of_mem _ hs2)
      obtain ⟨id, hm, heq⟩ := ih _ _ hok2 hviol2
      exact ⟨id, List.mem_cons_of_mem _ hm, heq⟩

/-- C3 (amended): verify fails with EmptyInput exactly on the empty buffer;
on a buffer len :: rest it fails with TruncatedInput exactly when the body
is shorter than 5 * len; given enough bytes it succeeds exactly when all
declared ids are at most 99 and no id repeats; an id above 99 forces an
InvalidSlot failure provided no duplicate occurs (and a duplicate forces
DuplicateSlot provided all ids are in range); any InvalidSlot or
DuplicateSlot failure really exhibits an offending declared id.  When both
violations are present the reported error is decided by scan order, with
the invalid-id check running before the duplicate check at each record,
not always InvalidSlot as the claim states.  No master key is consumed:
verify is a function of the bytes alone. -/
theorem C3_verify_validation (bytes : List Nat) :
    (verify bytes = Except.error VaultError.emptyInput ↔ bytes = []) ∧
    (∀ len rest, bytes = len :: rest →
      ((verify bytes = Except.error VaultError.truncatedInput ↔
          rest.length < len * 5) ∧
       (len * 5 ≤ rest.length →
        ((verify bytes = Except.ok () ↔
            (∀ id ∈ idsFrom rest 0 len, id ≤ 99) ∧ (idsFrom rest 0 len).Nodup) ∧
         ((idsFrom rest 0 len).Nodup → (∃ id ∈ idsFrom rest 0 len, 99 < id) →
            ∃ id, 99 < id ∧ id ∈ idsFrom rest 0 len ∧
              verify bytes = Except.error (VaultError.invalidSlot id)) ∧
         ((∀ id ∈ idsFrom rest 0 len, id ≤ 99) → ¬ (idsFrom rest 0 len).Nodup →
            ∃ id ∈ idsFrom rest 0 len,
              verify bytes = Except.error (VaultError.duplicateSlot id)) ∧
         (∀ id, verify bytes = Except.error (VaultError.invalidSlot id) →
            id ∈ idsFrom rest 0 len ∧ 99 < id) ∧
         (∀ id, verify bytes = Except.error (VaultError.duplicateSlot id) →
            ¬ (idsFrom rest 0 len).Nodup))))) := by
  constructor
  · cases bytes with
    | nil => simp [verify]
    | cons len rest =>
      simp only [verify]
      by_cases hs : rest.length < len * 5
      · rw [if_pos hs]
        simp
      · rw [if_neg hs]
        simp [verifyLoop_ne_empty rest len 0 []]
  · intro len rest heq
    subst heq
    have hv0 : verify (len :: rest) =
        (if rest.length < len * 5 then Except.error VaultError.truncatedInput
         else verifyLoop rest len 0 []) := rfl
    constructor
    · by_cases hs : rest.length < len * 5
      · rw [hv0, if_pos hs]
        simp [hs]
      · rw [hv0, if_neg hs]
        simp [verifyLoop_ne_truncated rest len 0 [], hs]
    · intro hge
      have hs : ¬ rest.length < len * 5 := by omega
      have hv : verify (len :: rest) = verifyLoop rest len 0 [] := by
        rw [hv0, if_neg hs]
      refine ⟨?_, ?_, ?_, ?_, ?_⟩
      · rw [hv, verifyLoop_ok_iff]
        simp
      · intro hnd hbad
        obtain ⟨id, hgt, hm, heq2⟩ :=
          verifyLoop_invalid_complete rest len 0 [] hnd (by simp) hbad
        exact ⟨id, hgt, hm, by rw [hv]; exact heq2⟩
      · intro hok hnd
        obtain ⟨id, hm, heq2⟩ :=
          verifyLoop_dup_complete rest len 0 [] hok (by simp [hnd])
        exact ⟨id, hm, by rw [hv]; exact heq2⟩
      · intro id h
        exact verifyLoop_invalid rest len 0 [] id (by rw [← hv]; exact h)
      · intro id h
        have := verifyLoop_dup rest len 0 [] id (by rw [← hv]; exact h)
        rcases this.2 with hmem | hnd
        · simp at hmem
        · exact hnd

/-- Witness for C3 at the buffer [1, 5, 0, 0, 0, 0]: one record with id 5,
accepted. -/
theorem C3_verify_validation_witness :
    verify [1, 5, 0, 0, 0, 0] = Except.ok () ↔
      (∀ id ∈ idsFrom [5, 0, 0, 0, 0] 0 1, id ≤ 99) ∧
        (idsFrom [5, 0, 0, 0, 0] 0 1).Nodup :=
  ((((C3_verify_validation [1, 5, 0, 0, 0, 0]).2 1 [5, 0, 0, 0, 0] rfl).2)
    (by decide)).1

/-- C3 counterexample: this buffer declares three records whose ids are
50, 50, 200.  It contains an id above 99 (200 at the third record), yet
verify rejects it as DuplicateSlot (the duplicate 50 is hit first in scan
order), not as InvalidSlot — refuting the claim that a declared id above
99 makes validation fail with InvalidSlot. -/
theorem C3_counterexample :
    verify [3, 50, 0, 0, 0, 0, 50, 0, 0, 0, 0, 200, 0, 0, 0, 0] =
      Except.error (VaultError.duplicateSlot 50) ∧
    (∃ id ∈ idsFrom [50, 0, 0, 0, 0, 50, 0, 0, 0, 0, 200, 0, 0, 0, 0] 0 3,
      99 < id) ∧
    (∀ id, verify [3, 50, 0, 0, 0, 0, 50, 0, 0, 0, 0, 200, 0, 0, 0, 0] ≠
      Except.error (VaultError.invalidSlot id)) := by
  refine ⟨by rfl, ⟨200, by decide, by decide⟩, ?_⟩
  intro id h
  have hd : verify [3, 50, 0, 0, 0, 0, 50, 0, 0, 0, 0, 200, 0, 0, 0, 0] =
      Except.error (VaultError.duplicateSlot 50) := by rfl
  rw [hd] at h
  simp at h

/-- From src/pins.rs: one stored pin (slot id and plaintext value). -/
structure Pin where
  id : Nat
  pin : Nat
deriving DecidableEq

/-- From src/pins.rs: the editor vault state. -/
structure Pins where
  master : Nat
  pins : List Pin
  max_id : Nat
deriving DecidableEq

/-- u32::to_be_bytes: the four big-endian bytes of a 32-bit word. -/
def toBeBytes (w : Nat) : List Nat :=
  [(w >>> 24) % 256, (w >>> 16) % 256, (w >>> 8) % 256, w % 256]

/-- The record loop of Pins::save: write the id byte, then the big-endian
ciphertext of each kept pin; rnd k supplies the random 2-bit mask for the
k-th written record (drawn from OsRng in the source). -/
def saveRecords (master : Nat) (rnd : Nat → Nat) : List Pin → Nat → List Nat
  | [], _ => []
  | p :: rest, k =>
    p.id :: (toBeBytes (encrypt master p.id p.pin (rnd k)) ++
      saveRecords master rnd rest (k + 1))

/-- From src/pins.rs, Pins::save: push self.len() as u8 — the length of the
unfiltered pin list, truncated to a byte — then write only the records
whose plaintext pin is nonzero. -/
def save (p : Pins) (rnd : Nat → Nat) : List Nat :=
  (p.pins.length % 256) ::
    saveRecords p.master rnd (p.pins.filter fun q => q.pin ≠ 0) 0

/-- Read the big-endian u32 whose first byte sits at offset off of the body
(pin_bytes[0] through pin_bytes[3] in the source). -/
def readWord (rest : List Nat) (off : Nat) : Nat :=
  (rest.getD off 0) <<< 24 ||| (rest.getD (off + 1) 0) <<< 16 |||
    (rest.getD (off + 2) 0) <<< 8 ||| rest.getD (off + 3) 0

/-- From src/pins.rs, Pins::load: decode the declared records under the
given master key, sort them by id (the Rust stable sort_by_key is modelled
by a stable insertion sort), and track the largest id.  The Rust asserts
(non-empty input, enough bytes, every id at most 99) are modelled as
Option.none. -/
def load (bytes : List Nat) (master : Nat) : Option Pins :=
  match bytes with
  | [] => none
  | len :: rest =>
    if rest.length < len * 5 then none
    else if ∀ i ∈ List.range len, rest.getD (i * 5) 0 ≤ 99 then
      let pinsList := (List.range len).map fun i =>
        Pin.mk (rest.getD (i * 5) 0)
          (decrypt master (rest.getD (i * 5) 0) (readWord rest (i * 5 + 1)))
      some ⟨master, List.insertionSort (fun a b => a.id ≤ b.id) pinsList,
        pinsList.foldl (fun m q => Nat.max m q.id) 0⟩
    else none

/-- From src/re.rs: one raw, still-encrypted record of the cracker. -/
structure RawPin where
  id : Nat
  pin : Nat
deriving DecidableEq

/-- From src/re.rs, Cracker::load: parse the declared records without any
master key; the Rust asserts (non-empty input, enough bytes) are modelled
as Option.none. -/
def crackerLoad (bytes : List Nat) : Option (List RawPin) :=
  match bytes with
  | [] => none
  | len :: rest =>
    if rest.length < len * 5 then none
    else some ((List.range len).map fun i =>
      RawPin.mk (rest.getD (i * 5) 0) (readWord rest (i * 5 + 1)))

lemma readWord_append (rest extra : List Nat) (off : Nat)
    (h : off + 4 ≤ rest.length) :
    readWord (rest ++ extra) off = readWord rest off := by
  unfold readWord
  rw [List.getD_append _ _ _ _ (by omega), List.getD_append _ _ _ _ (by omega),
    List.getD_append _ _ _ _ (by omega), List.getD_append _ _ _ _ (by omega)]

lemma verifyLoop_append (rest extra : List Nat) (k i : Nat) (seen : List Nat)
    (h : (i + k) * 5 ≤ rest.length) :
    verifyLoop (rest ++ extra) k i seen = verifyLoop rest k i seen := by
  induction k generalizing i seen with
  | zero => rfl
  | succ k ih =>
    simp only [verifyLoop]
    rw [List.getD_append _ _ _ _ (by omega)]
    by_cases h1 : rest.getD (i * 5) 0 > 99
    · rw [if_pos h1, if_pos h1]
    · rw [if_neg h1, if_neg h1]
      by_cases h2 : rest.getD (i * 5) 0 ∈ seen
      · rw [if_pos h2, if_pos h2]
      · rw [if_neg h2, if_neg h2]
        exact ih _ _ (by omega)

lemma mem_idsFrom (rest : List Nat) (i k id : Nat) :
    id ∈ idsFrom rest i k ↔ ∃ j, j < k ∧ id = rest.getD ((i + j) * 5) 0 := by
  induction k generalizing i with
  | zero => simp [idsFrom]
  | succ k ih =>
    simp only [idsFrom, List.mem_cons, ih]
    constructor
    · rintro (rfl | ⟨j, hj, rfl⟩)
      · exact ⟨0, by omega, by norm_num⟩
      · exact ⟨j + 1, by omega, by rw [show i + (j + 1) = i + 1 + j by omega]⟩
    · rintro ⟨j, hj, rfl⟩
      cases j with
      | zero => exact Or.inl (by norm_num)
      | succ j =>
        exact Or.inr ⟨j, by omega, by rw [show i + 1 + j = i + (j + 1) by omega]⟩

/-- C2 (code bug): Pins::save pushes self.len() — the length of the
unfiltered pin list — as the count byte, while the record loop skips every
record whose plaintext is 0.  For the state with master 0 holding the
zero-valued pin (id 0) and the nonzero pin (id 1, value 5), the saved
bytes declare 2 records but carry only 1 (6 bytes in total), so verify
rejects saves own output as TruncatedInput instead of accepting it with
the zero record absent, whatever mask bits the random source supplies. -/
theorem C2_save_count_mismatch (rnd : Nat → Nat) :
    save ⟨0, [⟨0, 0⟩, ⟨1, 5⟩], 1⟩ rnd =
      2 :: 1 :: toBeBytes (encrypt 0 1 5 (rnd 0)) ∧
    (save ⟨0, [⟨0, 0⟩, ⟨1, 5⟩], 1⟩ rnd).length = 6 ∧
    verify (save ⟨0, [⟨0, 0⟩, ⟨1, 5⟩], 1⟩ rnd) =
      Except.error VaultError.truncatedInput := by
  have h : save ⟨0, [⟨0, 0⟩, ⟨1, 5⟩], 1⟩ rnd =
      2 :: 1 :: toBeBytes (encrypt 0 1 5 (rnd 0)) := by
    simp [save, saveRecords]
  refine ⟨h, ?_, ?_⟩
  · rw [h]
    simp [toBeBytes]
  · rw [h]
    simp [verify, toBeBytes]

/-- C10: for a buffer whose body already holds the declared len * 5 record
bytes, appending trailing bytes changes neither verification nor either
loader: acceptance and the parsed records depend only on the first
1 + 5 * len bytes, and a buffer that verifies is accepted by both loaders
even with trailing garbage present. -/
theorem C10_trailing_bytes_ignored (len : Nat) (rest extra : List Nat)
    (master : Nat) (h : len * 5 ≤ rest.length) :
    verify (len :: (rest ++ extra)) = verify (len :: rest) ∧
    load (len :: (rest ++ extra)) master = load (len :: rest) master ∧
    crackerLoad (len :: (rest ++ extra)) = crackerLoad (len :: rest) ∧
    (verify (len :: rest) = Except.ok () →
      (load (len :: (rest ++ extra)) master).isSome ∧
      (crackerLoad (len :: (rest ++ extra))).isSome) := by
  have hlen : ¬ rest.length < len * 5 := by omega
  have hlen2 : ¬ (rest ++ extra).length < len * 5 := by
    rw [List.length_append]
    omega
  have hgetD : ∀ i, i < len →
      (rest ++ extra).getD (i * 5) 0 = rest.getD (i * 5) 0 := by
    intro i hi
    exact List.getD_append _ _ _ _ (by omega)
  have hword : ∀ i, i < len →
      readWord (rest ++ extra) (i * 5 + 1) = readWord rest (i * 5 + 1) := by
    intro i hi
    exact readWord_append rest extra _ (by omega)
  have hmapP : ((List.range len).map fun i =>
      Pin.mk ((rest ++ extra).getD (i * 5) 0)
        (decrypt master ((rest ++ extra).getD (i * 5) 0)
          (readWord (rest ++ extra) (i * 5 + 1)))) =
      (List.range len).map fun i =>
        Pin.mk (rest.getD (i * 5) 0)
          (decrypt master (rest.getD (i * 5) 0) (readWord rest (i * 5 + 1))) := by
    apply List.map_congr_left
    intro i hi
    rw [List.mem_range] at hi
    rw [hgetD i hi, hword i hi]
  have hmapR : ((List.range len).map fun i =>
      RawPin.mk ((rest ++ extra).getD (i * 5) 0)
        (readWord (rest ++ extra) (i * 5 + 1))) =
      (List.range len).map fun i =>
        RawPin.mk (rest.getD (i * 5) 0) (readWord rest (i * 5 + 1)) := by
    apply List.map_congr_left
    intro i hi
    rw [List.mem_range] at hi
    rw [hgetD i hi, hword i hi]
  have hcond : (∀ i ∈ List.range len, (rest ++ extra).getD (i * 5) 0 ≤ 99) ↔
      (∀ i ∈ List.range len, rest.getD (i * 5) 0 ≤ 99) := by
    constructor
    · intro hall i hi
      rw [← hgetD i (List.mem_range.mp hi)]
      exact hall i hi
    · intro hall i hi
      rw [hgetD i (List.mem_range.mp hi)]
      exact hall i hi
  have hverify : verify (len :: (rest ++ extra)) = verify (len :: rest) := by
    simp only [verify]
    rw [if_neg hlen2, if_neg hlen]
    exact verifyLoop_append rest extra len 0 [] (by omega)
  have hcrack : crackerLoad (len :: (rest ++ extra)) = crackerLoad (len :: rest) := by
    simp only [crackerLoad]
    rw [if_neg hlen2, if_neg hlen, hmapR]
  have hload : load (len :: (rest ++ extra)) master = load (len :: rest) master := by
    simp only [load]
    rw [if_neg hlen2, if_neg hlen]
    by_cases hall : ∀ i ∈ List.range len, rest.getD (i * 5) 0 ≤ 99
    · rw [if_pos (hcond.mpr hall), if_pos hall, hmapP]
    · rw [if_neg (fun hx => hall (hcond.mp hx)), if_neg hall]
  refine ⟨hverify, hload, hcrack, ?_⟩
  intro hok
  have hvr : verify (len :: rest) = verifyLoop rest len 0 [] := by
    simp only [verify]
    rw [if_neg hlen]
  have hids : ∀ id ∈ idsFrom rest 0 len, id ≤ 99 :=
    ((verifyLoop_ok_iff rest len 0 []).mp (by rw [← hvr]; exact hok)).1
  have hall : ∀ i ∈ List.range len, rest.getD (i * 5) 0 ≤ 99 := by
    intro i hi
    apply hids
    rw [mem_idsFrom]
    exact ⟨i, List.mem_range.mp hi, by norm_num⟩
  constructor
  · rw [hload]
    simp only [load]
    rw [if_neg hlen, if_pos hall]
    rfl
  · rw [hcrack]
    simp only [crackerLoad]
    rw [if_neg hlen]
    rfl

/-- Witness for C10 at the one-record buffer [1, 5, 0, 0, 0, 0] with two
trailing garbage bytes. -/
theorem C10_trailing_bytes_ignored_witness :
    (load (1 :: ([5, 0, 0, 0, 0] ++ [7, 7])) 0).isSome ∧
    (crackerLoad (1 :: ([5, 0, 0, 0, 0] ++ [7, 7]))).isSome :=
  (C10_trailing_bytes_ignored 1 [5, 0, 0, 0, 0] [7, 7] 0 (by norm_num)).2.2.2
    (by rfl)

/-- From src/re.rs: a candidate master key together with its score. -/
structure SusMaster where
  master : Nat
  score : Nat
deriving DecidableEq

/-- The record loop of Cracker::part_bruteforce: decode every record under
the candidate master; any decode above 999_999_999 zeroes the score and
breaks; a decode equal to 0, 123456789 or 987654321 adds one. -/
def scoreLoop (master : Nat) : List RawPin → Nat → Nat
  | [], score => score
  | p :: rest, score =>
    let pin := decrypt master p.id p.pin
    if pin > 999999999 then 0
    else scoreLoop master rest
      (if pin = 0 ∨ pin = 123456789 ∨ pin = 987654321 then score + 1 else score)

/-- The record loop of Cracker::part_find: as scoreLoop, but a decode
counts when it is contained in the caller-supplied known pins. -/
def findLoop (master : Nat) (known : List Nat) : List RawPin → Nat → Nat
  | [], score => score
  | p :: rest, score =>
    let pin := decrypt master p.id p.pin
    if pin > 999999999 then 0
    else findLoop master known rest (if pin ∈ known then score + 1 else score)

/-- The while loop of Cracker::part_bruteforce: master runs from its start
value in steps of step while below mx, pushing every candidate whose score
is positive.  The Rust loop never terminates when step = 0 and master is
below mx; the 0 < step guard makes the model total, and the loop is only
invoked with step equal to the thread count, at least 1, in the claims. -/
def bruteLoop (pins : List RawPin) (step mx : Nat) (master : Nat) :
    List SusMaster :=
  if h : master < mx ∧ 0 < step then
    (let score := scoreLoop master pins 0
     if 0 < score then [SusMaster.mk master score] else []) ++
      bruteLoop pins step mx (master + step)
  else []
termination_by mx - master
decreasing_by omega

/-- From src/re.rs, Cracker::part_bruteforce, with max.unwrap_or applied:
the bound defaults to 1_000_000_000. -/
def part_bruteforce (pins : List RawPin) (start step : Nat) (mx : Option Nat) :
    List SusMaster :=
  bruteLoop pins step (mx.getD 1000000000) start

/-- The while loop of Cracker::part_find, with the same stride structure as
bruteLoop and the known-plaintext score. -/
def findMLoop (pins : List RawPin) (known : List Nat) (step mx master : Nat) :
    List SusMaster :=
  if h : master < mx ∧ 0 < step then
    (let score := findLoop master known pins 0
     if 0 < score then [SusMaster.mk master score] else []) ++
      findMLoop pins known step mx (master + step)
  else []
termination_by mx - master
decreasing_by omega

/-- From src/re.rs, Cracker::part_find, with max.unwrap_or applied. -/
def part_find (pins : List RawPin) (start step : Nat) (mx : Option Nat)
    (known : List Nat) : List SusMaster :=
  findMLoop pins known step (mx.getD 1000000000) start

/-- From src/re.rs, Cracker::bruteforce_threaded: worker i of T evaluates
the stride i, i + T, i + 2T, ...; the scoped spawn-and-join followed by
flattening every worker list is modelled by mapping over the worker
indices and flattening. -/
def bruteforce_threaded (pins : List RawPin) (T : Nat) : List SusMaster :=
  ((List.range T).map fun i => part_bruteforce pins i T none).flatten

/-- From src/re.rs, Cracker::find_threaded: asserts that the known-pin list
is non-empty (the panic — the EmptyKnownSet failure of the specification —
is modelled as none), then runs the workers exactly as bruteforce_threaded
does. -/
def find_threaded (pins : List RawPin) (T : Nat) (known : List Nat) :
    Option (List SusMaster) :=
  if known = [] then none
  else some (((List.range T).map fun i => part_find pins i T none known).flatten)

/-- The candidate keys the worker loop starting at master with stride step
visits below mx (the master sequence of bruteLoop and findMLoop). -/
def strideMasters (step mx master : Nat) : List Nat :=
  if h : master < mx ∧ 0 < step then
    master :: strideMasters step mx (master + step)
  else []
termination_by mx - master
decreasing_by omega

lemma part_bruteforce_none (pins : List RawPin) (start step : Nat) :
    part_bruteforce pins start step none = bruteLoop pins step 1000000000 start := rfl

lemma part_find_none (pins : List RawPin) (start step : Nat) (known : List Nat) :
    part_find pins start step none known =
      findMLoop pins known step 1000000000 start := rfl

lemma mem_strideMasters (step mx master m : Nat) :
    m ∈ strideMasters step mx master ↔
      0 < step ∧ m < mx ∧ ∃ q, m = master + q * step := by
  induction master using strideMasters.induct step mx with
  | case1 master hcond ih =>
    rw [strideMasters, dif_pos hcond]
    simp only [List.mem_cons]
    constructor
    · intro hmem
      rcases hmem with rfl | hrec
      · exact ⟨hcond.2, hcond.1, 0, by ring⟩
      · obtain ⟨hs, hmx, q, rfl⟩ := ih.mp hrec
        exact ⟨hs, hmx, q + 1, by ring⟩
    · rintro ⟨hs, hmx, q, rfl⟩
      cases q with
      | zero => exact Or.inl (by ring)
      | succ q =>
        exact Or.inr (ih.mpr ⟨hs, hmx, q, by ring⟩)
  | case2 master hcond =>
    rw [strideMasters, dif_neg hcond]
    simp only [List.not_mem_nil, false_iff]
    rintro ⟨hs, hmx, q, rfl⟩
    exact hcond ⟨by omega, hs⟩

lemma mem_bruteLoop (pins : List RawPin) (step mx master m s : Nat) :
    SusMaster.mk m s ∈ bruteLoop pins step mx master ↔
      0 < step ∧ m < mx ∧ (∃ q, m = master + q * step) ∧
        s = scoreLoop m pins 0 ∧ 0 < s := by
  induction master using bruteLoop.induct pins step mx with
  | case1 master hcond ih =>
    rw [bruteLoop, dif_pos hcond]
    simp only [List.mem_append]
    constructor
    · intro hmem
      rcases hmem with hone | hrec
      · by_cases hsc : 0 < scoreLoop master pins 0
        · simp only [if_pos hsc, List.mem_singleton, SusMaster.mk.injEq] at hone
          obtain ⟨rfl, rfl⟩ := hone
          exact ⟨hcond.2, hcond.1, ⟨0, by ring⟩, rfl, hsc⟩
        · simp only [if_neg hsc, List.not_mem_nil] at hone
      · obtain ⟨hs, hmx, ⟨q, rfl⟩, hsc, hpos⟩ := ih.mp hrec
        exact ⟨hs, hmx, ⟨q + 1, by ring⟩, hsc, hpos⟩
    · rintro ⟨hs, hmx, ⟨q, hq⟩, hsceq, hpos⟩
      cases q with
      | zero =>
        left
        have hm0 : m = master := by omega
        subst hm0
        rw [hsceq] at hpos
        rw [if_pos hpos, hsceq]
        exact List.mem_singleton_self _
      | succ q =>
        right
        apply ih.mpr
        refine ⟨hs, hmx, ⟨q, ?_⟩, hsceq, hpos⟩
        rw [hq, Nat.succ_mul]
        ring
  | case2 master hcond =>
    rw [bruteLoop, dif_neg hcond]
    simp only [List.not_mem_nil, false_iff]
    rintro ⟨hs, hmx, ⟨q, hq⟩, -, -⟩
    have hle : master ≤ m := by
      rw [hq]
      exact Nat.le_add_right _ _
    exact hcond ⟨lt_of_le_of_lt hle hmx, hs⟩

lemma mem_findMLoop (pins : List RawPin) (known : List Nat)
    (step mx master m s : Nat) :
    SusMaster.mk m s ∈ findMLoop pins known step mx master ↔
      0 < step ∧ m < mx ∧ (∃ q, m = master + q * step) ∧
        s = findLoop m known pins 0 ∧ 0 < s := by
  induction master using findMLoop.induct pins known step mx with
  | case1 master hcond ih =>
    rw [findMLoop, dif_pos hcond]
    simp only [List.mem_append]
    constructor
    · intro hmem
      rcases hmem with hone | hrec
      · by_cases hsc : 0 < findLoop master known pins 0
        · simp only [if_pos hsc, List.mem_singleton, SusMaster.mk.injEq] at hone
          obtain ⟨rfl, rfl⟩ := hone
          exact ⟨hcond.2, hcond.1, ⟨0, by ring⟩, rfl, hsc⟩
        · simp only [if_neg hsc, List.not_mem_nil] at hone
      · obtain ⟨hs, hmx, ⟨q, rfl⟩, hsc, hpos⟩ := ih.mp hrec
        exact ⟨hs, hmx, ⟨q + 1, by ring⟩, hsc, hpos⟩
    · rintro ⟨hs, hmx, ⟨q, hq⟩, hsceq, hpos⟩
      cases q with
      | zero =>
        left
        have hm0 : m = master := by omega
        subst hm0
        rw [hsceq] at hpos
        rw [if_pos hpos, hsceq]
        exact List.mem_singleton_self _
      | succ q =>
        right
        apply ih.mpr
        refine ⟨hs, hmx, ⟨q, ?_⟩, hsceq, hpos⟩
        rw [hq, Nat.succ_mul]
        ring
  | case2 master hcond =>
    rw [findMLoop, dif_neg hcond]
    simp only [List.not_mem_nil, false_iff]
    rintro ⟨hs, hmx, ⟨q, hq⟩, -, -⟩
    have hle : master ≤ m := by
      rw [hq]
      exact Nat.le_add_right _ _
    exact hcond ⟨lt_of_le_of_lt hle hmx, hs⟩

lemma mem_bruteforce_threaded_iff (pins : List RawPin) (T m s : Nat)
    (hT : 0 < T) :
    SusMaster.mk m s ∈ bruteforce_threaded pins T ↔
      m < 1000000000 ∧ s = scoreLoop m pins 0 ∧ 0 < s := by
  unfold bruteforce_threaded
  simp only [List.mem_flatten, List.mem_map, List.mem_range]
  constructor
  · rintro ⟨l, ⟨i, hi, rfl⟩, hmem⟩
    rw [part_bruteforce_none, mem_bruteLoop] at hmem
    exact ⟨hmem.2.1, hmem.2.2.2⟩
  · rintro ⟨hmx, hsc, hpos⟩
    refine ⟨part_bruteforce pins (m % T) T none, ⟨m % T, Nat.mod_lt _ hT, rfl⟩, ?_⟩
    rw [part_bruteforce_none, mem_bruteLoop]
    refine ⟨hT, hmx, ⟨m / T, ?_⟩, hsc, hpos⟩
    rw [Nat.mul_comm]
    exact (Nat.mod_add_div m T).symm

lemma mem_find_flatten_iff (pins : List RawPin) (known : List Nat) (T m s : Nat)
    (hT : 0 < T) :
    SusMaster.mk m s ∈
      ((List.range T).map fun i => part_find pins i T none known).flatten ↔
      m < 1000000000 ∧ s = findLoop m known pins 0 ∧ 0 < s := by
  simp only [List.mem_flatten, List.mem_map, List.mem_range]
  constructor
  · rintro ⟨l, ⟨i, hi, rfl⟩, hmem⟩
    rw [part_find_none, mem_findMLoop] at hmem
    exact ⟨hmem.2.1, hmem.2.2.2⟩
  · rintro ⟨hmx, hsc, hpos⟩
    refine ⟨part_find pins (m % T) T none known, ⟨m % T, Nat.mod_lt _ hT, rfl⟩, ?_⟩
    rw [part_find_none, mem_findMLoop]
    refine ⟨hT, hmx, ⟨m / T, ?_⟩, hsc, hpos⟩
    rw [Nat.mul_comm]
    exact (Nat.mod_add_div m T).symm

lemma scoreLoop_oob (master : Nat) (pins : List RawPin)
    (h : ∃ p ∈ pins, 999999999 < decrypt master p.id p.pin) :
    ∀ s, scoreLoop master pins s = 0 := by
  induction pins with
  | nil => simp at h
  | cons p rest ih =>
    intro s
    simp only [scoreLoop]
    by_cases hp : decrypt master p.id p.pin > 999999999
    · rw [if_pos hp]
    · rw [if_neg hp]
      apply ih
      rcases h with ⟨q, hq, hgt⟩
      rcases List.mem_cons.mp hq with rfl | hmem
      · exact absurd hgt hp
      · exact ⟨q, hmem, hgt⟩

lemma findLoop_oob (master : Nat) (known : List Nat) (pins : List RawPin)
    (h : ∃ p ∈ pins, 999999999 < decrypt master p.id p.pin) :
    ∀ s, findLoop master known pins s = 0 := by
  induction pins with
  | nil => simp at h
  | cons p rest ih =>
    intro s
    simp only [findLoop]
    by_cases hp : decrypt master p.id p.pin > 999999999
    · rw [if_pos hp]
    · rw [if_neg hp]
      apply ih
      rcases h with ⟨q, hq, hgt⟩
      rcases List.mem_cons.mp hq with rfl | hmem
      · exact absurd hgt hp
      · exact ⟨q, hmem, hgt⟩

lemma scoreLoop_count (master : Nat) (pins : List RawPin)
    (h : ∀ p ∈ pins, decrypt master p.id p.pin ≤ 999999999) :
    ∀ s, scoreLoop master pins s = s + (pins.countP fun p =>
      decide (decrypt master p.id p.pin = 0 ∨
        decrypt master p.id p.pin = 123456789 ∨
        decrypt master p.id p.pin = 987654321)) := by
  induction pins with
  | nil => simp [scoreLoop]
  | cons p rest ih =>
    intro s
    simp only [scoreLoop]
    have hp : ¬ decrypt master p.id p.pin > 999999999 := by
      have := h p (List.mem_cons_self _ _)
      omega
    rw [if_neg hp, ih (fun q hq => h q (List.mem_cons_of_mem _ hq))]
    by_cases hw : decrypt master p.id p.pin = 0 ∨
        decrypt master p.id p.pin = 123456789 ∨
        decrypt master p.id p.pin = 987654321
    · rw [if_pos hw]
      simp [List.countP_cons, hw]
      omega
    · rw [if_neg hw]
      simp [List.countP_cons, decide_eq_false hw]
      tauto

/-- C4: in both search modes, a candidate master key under which some
record decodes above 999_999_999 scores exactly 0 (the record loop aborts
with score 0) and is never present in the threaded search output, whatever
the worker count and whatever the other records decode to. -/
theorem C4_implausibility_short_circuit (pins : List RawPin) (master T : Nat)
    (known : List Nat)
    (h : ∃ p ∈ pins, 999999999 < decrypt master p.id p.pin) :
    scoreLoop master pins 0 = 0 ∧ findLoop master known pins 0 = 0 ∧
    (∀ s, SusMaster.mk master s ∉ bruteforce_threaded pins T) ∧
    (∀ res, find_threaded pins T known = some res →
      ∀ s, SusMaster.mk master s ∉ res) := by
  have hb := scoreLoop_oob master pins h
  have hf := findLoop_oob master known pins h
  refine ⟨hb 0, hf 0, ?_, ?_⟩
  · intro s hmem
    unfold bruteforce_threaded at hmem
    simp only [List.mem_flatten, List.mem_map, List.mem_range] at hmem
    obtain ⟨l, ⟨i, hi, rfl⟩, hpart⟩ := hmem
    rw [part_bruteforce_none, mem_bruteLoop] at hpart
    obtain ⟨-, -, -, hseq, hpos⟩ := hpart
    rw [hb 0] at hseq
    omega
  · intro res hres s hmem
    unfold find_threaded at hres
    by_cases hk : known = []
    · rw [if_pos hk] at hres
      cases hres
    · rw [if_neg hk] at hres
      obtain rfl := Option.some.inj hres
      simp only [List.mem_flatten, List.mem_map, List.mem_range] at hmem
      obtain ⟨l, ⟨i, hi, rfl⟩, hpart⟩ := hmem
      rw [part_find_none, mem_findMLoop] at hpart
      obtain ⟨-, -, -, hseq, hpos⟩ := hpart
      rw [hf 0] at hseq
      omega

/-- Witness for C4: a one-record vault whose record decodes to
1_000_000_000 under master 0 scores 0. -/
theorem C4_implausibility_short_circuit_witness :
    scoreLoop 0 [RawPin.mk 0 1000000000] 0 = 0 :=
  (C4_implausibility_short_circuit [RawPin.mk 0 1000000000] 0 1 []
    (by decide)).1

/-- C5: for any worker count T at least 1, every master key below
1_000_000_000 is visited by exactly one of the T strided worker loops, and
the threaded search output is the same set of candidates as with a single
worker, in both heuristic and known-plaintext modes. -/
theorem C5_partition_completeness (pins : List RawPin) (T : Nat) (hT : 1 ≤ T) :
    (∀ m, m < 1000000000 →
      ∃! i, i < T ∧ m ∈ strideMasters T 1000000000 i) ∧
    (∀ sm, sm ∈ bruteforce_threaded pins T ↔ sm ∈ bruteforce_threaded pins 1) ∧
    (∀ known resT res1, find_threaded pins T known = some resT →
      find_threaded pins 1 known = some res1 →
      ∀ sm, sm ∈ resT ↔ sm ∈ res1) := by
  refine ⟨?_, ?_, ?_⟩
  · intro m hm
    refine ⟨m % T, ⟨Nat.mod_lt _ (by omega), ?_⟩, ?_⟩
    · rw [mem_strideMasters]
      refine ⟨by omega, hm, m / T, ?_⟩
      rw [Nat.mul_comm]
      exact (Nat.mod_add_div m T).symm
    · rintro i ⟨hiT, hmem⟩
      rw [mem_strideMasters] at hmem
      obtain ⟨-, -, q, hq⟩ := hmem
      rw [hq, Nat.add_mul_mod_self_right, Nat.mod_eq_of_lt hiT]
  · intro sm
    obtain ⟨m, s⟩ := sm
    rw [mem_bruteforce_threaded_iff pins T m s (by omega),
      mem_bruteforce_threaded_iff pins 1 m s (by norm_num)]
  · intro known resT res1 hrT hr1 sm
    unfold find_threaded at hrT hr1
    by_cases hk : known = []
    · rw [if_pos hk] at hrT
      cases hrT
    · rw [if_neg hk] at hrT hr1
      obtain rfl := Option.some.inj hrT
      obtain rfl := Option.some.inj hr1
      obtain ⟨m, s⟩ := sm
      rw [mem_find_flatten_iff pins known T m s (by omega),
        mem_find_flatten_iff pins known 1 m s (by norm_num)]

/-- Witness for C5: with two workers, master key 5 is visited by exactly
one worker stride. -/
theorem C5_partition_completeness_witness :
    ∃! i, i < 2 ∧ 5 ∈ strideMasters 2 1000000000 i :=
  (C5_partition_completeness [] 2 (by norm_num)).1 5 (by norm_num)

/-- C6: for a candidate master with no out-of-range decode, the heuristic
score is the count of records decoding to one of the three fixed weak
plaintexts 0, 123456789 and 987654321, and the candidate is emitted by the
single-worker full-space search exactly when that score is at least 1. -/
theorem C6_heuristic_score (pins : List RawPin) (master : Nat)
    (hin : ∀ p ∈ pins, decrypt master p.id p.pin ≤ 999999999)
    (hm : master < 1000000000) :
    scoreLoop master pins 0 = (pins.countP fun p =>
      decide (decrypt master p.id p.pin = 0 ∨
        decrypt master p.id p.pin = 123456789 ∨
        decrypt master p.id p.pin = 987654321)) ∧
    (∀ s, SusMaster.mk master s ∈ bruteforce_threaded pins 1 ↔
      s = scoreLoop master pins 0 ∧ 1 ≤ s) := by
  constructor
  · have := scoreLoop_count master pins hin 0
    omega
  · intro s
    rw [mem_bruteforce_threaded_iff pins 1 master s (by norm_num)]
    constructor
    · rintro ⟨-, hs, hpos⟩
      exact ⟨hs, hpos⟩
    · rintro ⟨hs, hpos⟩
      exact ⟨hm, hs, hpos⟩

/-- Witness for C6 at the empty vault and master 0. -/
theorem C6_heuristic_score_witness :
    SusMaster.mk 0 5 ∈ bruteforce_threaded [] 1 ↔
      5 = scoreLoop 0 [] 0 ∧ 1 ≤ 5 :=
  (C6_heuristic_score [] 0 (by simp) (by norm_num)).2 5

/-- C9: the known-plaintext search with an empty known-pin list fails (the
assert panic, the EmptyKnownSet failure of the specification) instead of
returning a result, for every vault and worker count, while any non-empty
known list yields a result. -/
theorem C9_empty_known_set (pins : List RawPin) (T : Nat) :
    find_threaded pins T [] = none ∧
    ∀ known : List Nat, known ≠ [] →
      ∃ res, find_threaded pins T known = some res := by
  constructor
  · unfold find_threaded
    rw [if_pos rfl]
  · intro known hk
    unfold find_threaded
    rw [if_neg hk]
    exact ⟨_, rfl⟩

/-- Witness for C9 at the empty vault with one worker. -/
theorem C9_empty_known_set_witness :
    find_threaded [] 1 [] = none ∧
      ∃ res, find_threaded [] 1 [42] = some res :=
  ⟨(C9_empty_known_set [] 1).1, (C9_empty_known_set [] 1).2 [42] (by simp)⟩

/-- C7: end-to-end scenario: a single record at slot 7 encrypted from
plaintext 42 under master 123456789 with any mask bits decodes back to 42
under that master; the full-space single-worker heuristic search never
emits master 123456789 for this vault (42 is not one of the weak values);
and the known-plaintext search with known set [42] emits it with score 1. -/
theorem C7_end_to_end (r : Nat) (hr : r ≤ 3) :
    decrypt 123456789 7 (encrypt 123456789 7 42 r) = 42 ∧
    (∀ s, SusMaster.mk 123456789 s ∉
      bruteforce_threaded [RawPin.mk 7 (encrypt 123456789 7 42 r)] 1) ∧
    (∃ res, find_threaded [RawPin.mk 7 (encrypt 123456789 7 42 r)] 1 [42] =
      some res ∧ SusMaster.mk 123456789 1 ∈ res) := by
  have hdec : decrypt 123456789 7 (encrypt 123456789 7 42 r) = 42 := by
    rw [decrypt_encrypt]
    exact decapsulate_of_lt 42 (by norm_num)
  have hscore :
      scoreLoop 123456789 [RawPin.mk 7 (encrypt 123456789 7 42 r)] 0 = 0 := by
    simp [scoreLoop, hdec]
  have hfind :
      findLoop 123456789 [42] [RawPin.mk 7 (encrypt 123456789 7 42 r)] 0 = 1 := by
    simp [findLoop, hdec]
  refine ⟨hdec, ?_, ?_⟩
  · intro s hmem
    rw [mem_bruteforce_threaded_iff _ _ _ _ (by norm_num)] at hmem
    obtain ⟨-, hs, hpos⟩ := hmem
    rw [hscore] at hs
    omega
  · unfold find_threaded
    rw [if_neg (by simp)]
    refine ⟨_, rfl, ?_⟩
    rw [mem_find_flatten_iff _ _ _ _ _ (by norm_num)]
    exact ⟨by norm_num, hfind.symm, by norm_num⟩

/-- Witness for C7 with mask bits 0. -/
theorem C7_end_to_end_witness :
    decrypt 123456789 7 (encrypt 123456789 7 42 0) = 42 :=
  (C7_end_to_end 0 (by norm_num)).1

/-- C1: for every u32 master key, slot id in [0, 99], pin below 2 ^ 30 and
any random mask value, decrypt inverts encrypt; the result of decrypt
always has bits 30-31 (and above) zero, i.e. is below 2 ^ 30; and the
decrypt result does not depend on which random mask bits encrypt used. -/
theorem C1_decode_encode_roundtrip (master id pin r : Nat)
    (hmaster : master < 2 ^ 32) (hid : id ≤ 99) (hpin : pin < 2 ^ 30)
    (hr : r ≤ 3) :
    decrypt master id (encrypt master id pin r) = pin ∧
    (∀ w : Nat, decrypt master id w < 2 ^ 30) ∧
    (∀ r1 r2 : Nat, decrypt master id (encrypt master id pin r1) =
      decrypt master id (encrypt master id pin r2)) := by
  refine ⟨?_, ?_, ?_⟩
  · rw [decrypt_encrypt, decapsulate_of_lt pin hpin]
  · intro w
    exact decapsulate_lt _
  · intro r1 r2
    rw [decrypt_encrypt, decrypt_encrypt]

/-- Witness for C1 at master 123456789, id 7, pin 42, mask 3. -/
theorem C1_decode_encode_roundtrip_witness :
    decrypt 123456789 7 (encrypt 123456789 7 42 3) = 42 :=
  (C1_decode_encode_roundtrip 123456789 7 42 3 (by norm_num) (by norm_num)
    (by norm_num) (by norm_num)).1

/-- C8: the keystream generator is a pure function: n_shift seed n is
exactly the n-th iterate of xorshift32 on seed, n_shift seed 0 = seed, and
one xorshift32 step is the 13/17/5 left-right-left shift-xor mix. -/
theorem C8_keystream_pure (seed n : Nat) :
    n_shift seed n = xorshift32^[n] seed ∧
    n_shift seed 0 = seed ∧
    xorshift32 seed =
      (let a := seed ^^^ ((seed <<< 13) % 2 ^ 32)
       let b := a ^^^ (a >>> 17)
       b ^^^ ((b <<< 5) % 2 ^ 32)) := by
  refine ⟨?_, rfl, rfl⟩
  induction n with
  | zero => rfl
  | succ k ih =>
    rw [Function.iterate_succ_apply', ← ih]
    rfl
